import Mathlib

/-!
Verification of `utils.go` (Noy/Go-Utilities).

Shallow embedding of `BubbleSortDesc`, `String`, `RemoveDuplicates` and `Mode` from
`src/utils.go`.

* A Go `string` is a finite sequence of bytes; it is modelled as a list of byte values.
* A Go slice is modelled by the list of its elements; an index expression that is out of
  range is a run-time panic and is modelled by `none`.
* Go `int64` arithmetic is modelled on `Int` with explicit wrap-around.
-/

namespace GoUtils

/-- A Go string: its sequence of bytes (each byte a number below 256). -/
abbrev GoString := List Nat

/-- Go's built-in `<` on strings: byte-wise lexicographic comparison, a proper prefix
being smaller. -/
def strLt : GoString → GoString → Bool
  | [], [] => false
  | [], _ :: _ => true
  | _ :: _, [] => false
  | a :: as, b :: bs => decide (a < b) || (a == b && strLt as bs)

/-- Go's built-in `<=` on strings: byte-wise lexicographic comparison. -/
def strLe : GoString → GoString → Bool
  | [], _ => true
  | _ :: _, [] => false
  | a :: as, b :: bs => decide (a < b) || (a == b && strLe as bs)

/-- Go's built-in `>=` on strings: `a >= b` is `b <= a`. -/
def strGe (a b : GoString) : Bool := strLe b a

/-! ## BubbleSortDesc (utils.go, lines 50-62) -/

/-- Body of the inner loop at index `j`:
`if arr[j-1] < arr[j] { temp = arr[j-1]; arr[j-1] = arr[j]; arr[j] = temp }`.
An index out of range gives `none`. -/
def swapStep (arr : List GoString) (j : Nat) : Option (List GoString) := do
  let x ← arr[j - 1]?
  let y ← arr[j]?
  if strLt x y then
    pure ((arr.set (j - 1) y).set j x)
  else
    pure arr

/-- The inner loop `for j := 1; j < len(arr)-i; j++ { ... }`: `j` runs through
`1, 2, ..., len(arr)-i-1`. -/
def innerLoop (arr : List GoString) (i : Nat) : Option (List GoString) :=
  (List.range' 1 (arr.length - i - 1)).foldlM swapStep arr

/-- The function `BubbleSortDesc`: the outer loop `for i := 0; i < len(arr); i++ { ... }`
followed by `return arr`. -/
def BubbleSortDesc (arr : List GoString) : Option (List GoString) :=
  (List.range arr.length).foldlM innerLoop arr

/-- What one pass of the inner loop leaves in front of the last position it visits, when it
starts with `a` in hand and `rest` still to visit. -/
def bubbleInit (a : GoString) : List GoString → List GoString
  | [] => []
  | b :: rest => if strLt a b then b :: bubbleInit a rest else a :: bubbleInit b rest

/-- The element one pass of the inner loop leaves at the last position it visits. -/
def bubbleLast (a : GoString) : List GoString → GoString
  | [] => a
  | b :: rest => if strLt a b then bubbleLast a rest else bubbleLast b rest

/-- Reference sort: a library insertion sort of the sequence under the descending comparator
`a >= b` of byte-wise lexicographic string comparison. -/
def referenceSortDesc (S : List GoString) : List GoString :=
  S.insertionSort (fun a b => strGe a b = true)

/-! ## String (utils.go, lines 71-90) -/

/-- Two's-complement wrap-around of a mathematical integer to the range of `int64`. -/
def wrapInt64 (x : Int) : Int := (x + 2 ^ 63) % 2 ^ 64 - 2 ^ 63

/-- The conversion `byte(x)` of an `int64`: its low eight bits. -/
def toByte (x : Int) : Nat := (x % 256).toNat

/-- The loop `for { pos--; buf[pos], i = '0'+byte(i%10), i/10; if i == 0 { ... } }` of
`String`. The first argument is `pos` on entry to the body; when it is `0` the decrement
gives `-1` and the write `buf[pos]` is out of range, and so is the write of the sign when
`pos` is `0` at that point: both are `none`. Go's `%` and `/` truncate toward zero. -/
def stringLoop : Nat → List Nat → Int → Bool → Option GoString
  | 0, _, _, _ => none
  | pos + 1, buf, i, signed =>
    let buf := buf.set pos ((48 + toByte (i.tmod 10)) % 256)
    let i := i.tdiv 10
    if i = 0 then
      if signed then
        match pos with
        | 0 => none
        | pos + 1 => some ((buf.set pos 45).drop pos)
      else
        some (buf.drop pos)
    else
      stringLoop pos buf i signed

/-- The function `String`: `buf := [11]byte{}`, `pos := len(buf)`, `i := int64(n)`,
`signed := i < 0`, `if signed { i = -i }`, then the loop. `none` is a run-time panic. -/
def String (n : Int) : Option GoString :=
  let buf := List.replicate 11 0
  let pos := buf.length
  let i := wrapInt64 n
  let signed := decide (i < 0)
  let i := if signed then wrapInt64 (-i) else i
  stringLoop pos buf i signed

/-- Value of a run of ASCII decimal digits read left to right, starting from the value `acc`
of the digits already read; `none` when a byte is not a digit. -/
def parseDigits : Nat → List Nat → Option Nat
  | acc, [] => some acc
  | acc, d :: ds => if 48 ≤ d ∧ d ≤ 57 then parseDigits (10 * acc + (d - 48)) ds else none

/-- Reference definition of standard base-10 integer parsing (as `strconv.Atoi` does): an
optional sign `+` or `-` followed by one or more decimal digits. -/
def parseDecimal (s : GoString) : Option Int :=
  match s with
  | [] => none
  | [45] => none
  | [43] => none
  | 45 :: ds => (parseDigits 0 ds).map (fun (v : Nat) => -(v : Int))
  | 43 :: ds => (parseDigits 0 ds).map (fun (v : Nat) => (v : Int))
  | ds => (parseDigits 0 ds).map (fun (v : Nat) => (v : Int))

/-- A value of a signed integer type that is `w` bits wide. Go's `int` is 32 or 64 bits
wide, depending on the platform. -/
@[reducible]
def isInt (w : Nat) (n : Int) : Prop := -(2 : Int) ^ (w - 1) ≤ n ∧ n < (2 : Int) ^ (w - 1)

/-- An ASCII decimal digit. -/
def isDigit (b : Nat) : Bool := decide (48 ≤ b) && decide (b ≤ 57)

/-- The form `[0-9]+` without a leading zero, the single digit `0` apart. -/
def digitsForm : GoString → Bool
  | [] => false
  | [d] => isDigit d
  | d :: ds => isDigit d && d != 48 && ds.all isDigit

/-- The form `-?[0-9]+` without leading zeros. -/
def decimalForm : GoString → Bool
  | 45 :: ds => digitsForm ds
  | s => digitsForm s

/-- Reference definition: the decimal digits of a natural number as ASCII bytes, most
significant first, as the standard library prints them (`0` is the single digit `0`). -/
def natText (v : Nat) : GoString := (Nat.toDigits 10 v).map Char.toNat

/-- Reference definition: the canonical base-10 text of an integer: `0` for zero, the
decimal digits without leading zeros for a positive number, and `-` followed by the decimal
digits of the magnitude for a negative one. -/
def decimalText (n : Int) : GoString :=
  (if n < 0 then [45] else []) ++ natText n.natAbs

/-! ## RemoveDuplicates (utils.go, lines 109-120) -/

/-- The local variables of `RemoveDuplicates`: `encountered` (a Go `map[string]bool`, in
which a key that is absent reads as `false`) and `result`. -/
structure DedupState where
  encountered : GoString → Bool
  result : List GoString

/-- Body of the loop of `RemoveDuplicates` once `elements[v]` has been read:
`if encountered[elements[v]] == true { } else { encountered[elements[v]] = true;
result = append(result, elements[v]) }`. -/
def dedupStep (s : DedupState) (el : GoString) : DedupState :=
  if s.encountered el = true then
    s
  else
    { encountered := Function.update s.encountered el true, result := s.result ++ [el] }

/-- Iteration `v` of the loop `for v := range elements`: the element `elements[v]` is read,
then the body runs. An index out of range gives `none`. -/
def dedupBody (elements : List GoString) (s : DedupState) (v : Nat) : Option DedupState := do
  let el ← elements[v]?
  pure (dedupStep s el)

/-- The function `RemoveDuplicates`: `encountered := map[string]bool{}`, `var result []string`,
the loop over the indices of `elements`, and `return result`. `none` is a run-time panic. -/
def RemoveDuplicates (elements : List GoString) : Option (List GoString) := do
  let s ← (List.range elements.length).foldlM (dedupBody elements)
    { encountered := fun _ => false, result := [] }
  pure s.result

/-- Reference definition: a sequence with every occurrence of a value after its first
occurrence deleted. -/
def keepFirst : List GoString → List GoString
  | [] => []
  | x :: xs => x :: (keepFirst xs).filter (fun y => decide (y ≠ x))

/-! ## Mode (utils.go, lines 188-208) -/

/-- The local variables of `Mode`: `modeMap` (a Go `map[string]int`, in which a key that is
absent reads as `0`), `maxEl` and `maxCount`. -/
structure ModeState where
  modeMap : GoString → Nat
  maxEl : GoString
  maxCount : Nat

/-- Body of the loop of `Mode` once `el = mode[i]` has been read:
`if modeMap[el] == 0 { modeMap[el] = 1 } else { modeMap[el]++ }` followed by
`if modeMap[el] > maxCount { maxEl = el; maxCount = modeMap[el] }`. -/
def modeStep (s : ModeState) (el : GoString) : ModeState :=
  let modeMap :=
    if s.modeMap el = 0 then Function.update s.modeMap el 1
    else Function.update s.modeMap el (s.modeMap el + 1)
  if modeMap el > s.maxCount then
    { modeMap := modeMap, maxEl := el, maxCount := modeMap el }
  else
    { modeMap := modeMap, maxEl := s.maxEl, maxCount := s.maxCount }

/-- Iteration `i` of the loop of `Mode`: `var el = mode[i]`, then the body. An index out of
range gives `none`. -/
def modeBody (mode : List GoString) (s : ModeState) (i : Nat) : Option ModeState := do
  let el ← mode[i]?
  pure (modeStep s el)

/-- The function `Mode`: the empty input returns `""`; otherwise `maxEl = mode[0]`,
`maxCount = 1`, the loop `for i := 0; i < len(mode); i++`, and `return maxEl`.
`none` is a run-time panic. -/
def Mode (mode : List GoString) : Option GoString :=
  if mode.length = 0 then
    some []
  else do
    let maxEl ← mode[0]?
    let s ← (List.range mode.length).foldlM (modeBody mode)
      { modeMap := fun _ => 0, maxEl := maxEl, maxCount := 1 }
    pure s.maxEl

/-- Index of the `k`-th occurrence (`k = 1` for the first) of `x` in a sequence, `none` when
`x` occurs fewer than `k` times. -/
def occIndex (x : GoString) : Nat → List GoString → Option Nat
  | _, [] => none
  | k, y :: ys =>
    if y = x then
      if k ≤ 1 then some 0 else (occIndex x (k - 1) ys).map (· + 1)
    else (occIndex x k ys).map (· + 1)

/-- Invariant of the loop of `Mode` once the elements `p` have been processed, for an input
whose first element is `first`: the map holds the occurrence counts in `p`, no count exceeds
`maxCount`, and, unless nothing has been processed yet, `maxEl` occurs `maxCount` times in
`p` and there is a prefix `q` of `p` in which `maxEl` has already reached `maxCount` while
every other value is still below it. -/
structure ModeInv (first : GoString) (p : List GoString) (s : ModeState) : Prop where
  map_eq : ∀ x, s.modeMap x = p.count x
  count_le : ∀ x, p.count x ≤ s.maxCount
  reached : (p = [] ∧ s.maxEl = first ∧ s.maxCount = 1) ∨
    (p.count s.maxEl = s.maxCount ∧
      ∃ q, q <+: p ∧ q.count s.maxEl = s.maxCount ∧ ∀ y, y ≠ s.maxEl → q.count y < s.maxCount)

/-! ### The order on strings -/

theorem strLe_eq_not_strLt (a b : GoString) : strLe a b = !strLt b a := by
  induction a generalizing b with
  | nil => cases b <;> simp [strLe, strLt]
  | cons x xs ih =>
    cases b with
    | nil => simp [strLe, strLt]
    | cons y ys =>
      simp only [strLe, strLt, ih]
      rcases Nat.lt_trichotomy x y with h | h | h
      · have h1 : ¬ y < x := by omega
        have h2 : ¬ y = x := by omega
        simp [h, h1, h2]
      · subst h; simp
      · have h1 : ¬ x < y := by omega
        have h2 : ¬ x = y := by omega
        simp [h, h1, h2]

theorem strLt_cons_iff (x y : Nat) (xs ys : GoString) :
    strLt (x :: xs) (y :: ys) = true ↔ x < y ∨ (x = y ∧ strLt xs ys = true) := by
  simp [strLt]

theorem strLt_irrefl (a : GoString) : strLt a a = false := by
  induction a with
  | nil => rfl
  | cons x xs ih => simp [strLt, ih]

theorem strLt_asymm {a b : GoString} (h : strLt a b = true) : strLt b a = false := by
  induction a generalizing b with
  | nil => cases b <;> simp [strLt] at h ⊢
  | cons x xs ih =>
    cases b with
    | nil => simp [strLt] at h
    | cons y ys =>
      rw [strLt_cons_iff] at h
      rw [← Bool.not_eq_true, strLt_cons_iff]
      rintro (h2 | ⟨h2, h3⟩)
      · rcases h with h | ⟨h, _⟩ <;> omega
      · rcases h with h | ⟨_, h⟩
        · omega
        · rw [ih h] at h3; exact absurd h3 (by simp)

/-- Negative transitivity of `<`, that is transitivity of `>=`. -/
theorem strLt_false_trans {a b c : GoString} (h1 : strLt a b = false) (h2 : strLt b c = false) :
    strLt a c = false := by
  induction a generalizing b c with
  | nil =>
    cases b with
    | nil => exact h2
    | cons y ys => simp [strLt] at h1
  | cons x xs ih =>
    cases c with
    | nil => simp [strLt]
    | cons z zs =>
      cases b with
      | nil => simp [strLt] at h2
      | cons y ys =>
        rw [← Bool.not_eq_true, strLt_cons_iff] at h1 h2 ⊢
        rintro (h | ⟨h, h3⟩)
        · by_cases hxy : x < y
          · exact h1 (Or.inl hxy)
          · by_cases hyz : y < z
            · exact h2 (Or.inl hyz)
            · omega
        · subst h
          by_cases hxy : x < y
          · exact h1 (Or.inl hxy)
          · by_cases hyx : y < x
            · exact h2 (Or.inl hyx)
            · have hyx : x = y := by omega
              subst hyx
              have h1' : strLt xs ys = false := by
                rw [← Bool.not_eq_true]; intro hh; exact h1 (Or.inr ⟨rfl, hh⟩)
              have h2' : strLt ys zs = false := by
                rw [← Bool.not_eq_true]; intro hh; exact h2 (Or.inr ⟨rfl, hh⟩)
              rw [ih h1' h2'] at h3
              exact absurd h3 (by simp)

/-! ### One pass of the inner loop -/

theorem swapStep_append (pre : List GoString) (a b : GoString) (post : List GoString) :
    swapStep (pre ++ a :: b :: post) (pre.length + 1) =
      some (if strLt a b then pre ++ b :: a :: post else pre ++ a :: b :: post) := by
  have h1 : (pre ++ a :: b :: post)[pre.length]? = some a := by
    rw [List.getElem?_append_right (Nat.le_refl _)]
    simp
  have h2 : (pre ++ a :: b :: post)[pre.length + 1]? = some b := by
    rw [List.getElem?_append_right (by omega)]
    simp
  simp only [swapStep, Nat.add_sub_cancel, h1, h2, Option.bind_eq_bind, Option.some_bind]
  by_cases h : strLt a b = true
  · simp only [h, if_true]
    simp [List.set_append]
  · simp [h]

theorem foldlM_swapStep (rest : List GoString) :
    ∀ (pre : List GoString) (a : GoString) (post : List GoString),
      (List.range' (pre.length + 1) rest.length).foldlM swapStep (pre ++ a :: (rest ++ post)) =
        some (pre ++ (bubbleInit a rest ++ bubbleLast a rest :: post)) := by
  induction rest with
  | nil => intro pre a post; simp [bubbleInit, bubbleLast]
  | cons b r ih =>
    intro pre a post
    simp only [List.length_cons, List.range'_succ, List.foldlM_cons, List.cons_append]
    rw [swapStep_append]
    by_cases h : strLt a b = true
    · have := ih (pre ++ [b]) a post
      simp only [List.length_append, List.length_singleton, List.append_assoc,
        List.singleton_append] at this
      simp [h, bubbleInit, bubbleLast, this]
    · have := ih (pre ++ [a]) b post
      simp only [List.length_append, List.length_singleton, List.append_assoc,
        List.singleton_append] at this
      simp [h, bubbleInit, bubbleLast, this]

theorem innerLoop_append (a : GoString) (rest back : List GoString) :
    innerLoop (a :: rest ++ back) back.length =
      some (bubbleInit a rest ++ bubbleLast a rest :: back) := by
  have h := foldlM_swapStep rest [] a back
  have hl : (a :: rest ++ back).length - back.length - 1 = rest.length := by
    simp only [List.length_append, List.length_cons]; omega
  unfold innerLoop
  rw [hl]
  simpa using h

theorem bubble_perm (rest : List GoString) :
    ∀ a : GoString, List.Perm (bubbleInit a rest ++ [bubbleLast a rest]) (a :: rest) := by
  induction rest with
  | nil => intro a; simp [bubbleInit, bubbleLast]
  | cons b r ih =>
    intro a
    by_cases h : strLt a b = true
    · simp only [bubbleInit, bubbleLast, h, if_true, List.cons_append]
      exact ((ih a).cons b).trans (List.Perm.swap a b r)
    · simp only [bubbleInit, bubbleLast, h, if_false, List.cons_append]
      exact (ih b).cons a

theorem bubbleLast_le (rest : List GoString) :
    ∀ a : GoString, strLt a (bubbleLast a rest) = false := by
  induction rest with
  | nil => intro a; simp [bubbleLast, strLt_irrefl]
  | cons b r ih =>
    intro a
    by_cases h : strLt a b = true
    · simp only [bubbleLast, h, if_true]; exact ih a
    · simp only [bubbleLast, h, if_false]
      exact strLt_false_trans (by simpa using h) (ih b)

theorem bubbleInit_ge (rest : List GoString) :
    ∀ (a x : GoString), x ∈ bubbleInit a rest → strLt x (bubbleLast a rest) = false := by
  induction rest with
  | nil => intro a x hx; simp [bubbleInit] at hx
  | cons b r ih =>
    intro a x hx
    cases h : strLt a b with
    | true =>
      simp only [bubbleInit, bubbleLast, h, if_true, List.mem_cons] at hx ⊢
      rcases hx with hx | hx
      · rw [hx]; exact strLt_false_trans (strLt_asymm h) (bubbleLast_le r a)
      · exact ih a x hx
    | false =>
      simp only [bubbleInit, bubbleLast, h, Bool.false_eq_true, if_false, List.mem_cons] at hx ⊢
      rcases hx with hx | hx
      · rw [hx]; exact strLt_false_trans h (bubbleLast_le r b)
      · exact ih b x hx

/-! ### The outer loop -/

/-- Invariant of the outer loop: after `k` passes the last `k` elements are in descending
order, none of them is greater than an element before them, and the slice is a
rearrangement of the input. -/
theorem outerLoop_invariant (arr : List GoString) :
    ∀ k : Nat, k ≤ arr.length → ∃ front back : List GoString,
      (List.range k).foldlM innerLoop arr = some (front ++ back) ∧
      back.length = k ∧ List.Perm (front ++ back) arr ∧
      back.Pairwise (fun x y => strLt x y = false) ∧
      ∀ x ∈ front, ∀ y ∈ back, strLt x y = false := by
  intro k
  induction k with
  | zero =>
    intro _
    exact ⟨arr, [], by simp, rfl, by simp, List.Pairwise.nil, by simp⟩
  | succ k ih =>
    intro hk
    obtain ⟨front, back, hrun, hlen, hperm, hsorted, hsep⟩ := ih (by omega)
    have hfl : front.length = arr.length - k := by
      have := hperm.length_eq
      simp only [List.length_append] at this
      omega
    cases front with
    | nil => simp only [List.length_nil] at hfl; omega
    | cons a rest =>
      refine ⟨bubbleInit a rest, bubbleLast a rest :: back, ?_, by simp [hlen], ?_, ?_, ?_⟩
      · rw [List.range_succ, List.foldlM_append, hrun]
        simp only [Option.bind_eq_bind, Option.some_bind, List.foldlM_cons, List.foldlM_nil]
        have := innerLoop_append a rest back
        rw [hlen] at this
        rw [this]
        rfl
      · have h1 : List.Perm (bubbleInit a rest ++ bubbleLast a rest :: back)
            ((bubbleInit a rest ++ [bubbleLast a rest]) ++ back) := by simp
        exact h1.trans (((bubble_perm rest a).append_right back).trans hperm)
      · have hmem : bubbleLast a rest ∈ a :: rest :=
          (bubble_perm rest a).subset (by simp)
        exact List.Pairwise.cons (fun y hy => hsep _ hmem y hy) hsorted
      · intro x hx y hy
        have hxm : x ∈ a :: rest :=
          (bubble_perm rest a).subset (List.mem_append_left _ hx)
        rcases List.mem_cons.mp hy with hy | hy
        · rw [hy]; exact bubbleInit_ge rest a x hx
        · exact hsep x hxm y hy

/-- The sort returns, and its result is a rearrangement of the input in which every element
is `>=` every later one. -/
theorem BubbleSortDesc_spec (arr : List GoString) :
    ∃ out : List GoString, BubbleSortDesc arr = some out ∧ List.Perm out arr ∧
      out.Pairwise (fun x y => strLt x y = false) := by
  obtain ⟨front, back, hrun, hlen, hperm, hsorted, _⟩ :=
    outerLoop_invariant arr arr.length (Nat.le_refl _)
  have hfl : front.length = 0 := by
    have := hperm.length_eq
    simp only [List.length_append] at this
    omega
  have hf : front = [] := List.length_eq_zero.mp hfl
  subst hf
  exact ⟨back, by simpa [BubbleSortDesc] using hrun, by simpa using hperm, hsorted⟩

/-- C1: for every sequence `S` of strings `BubbleSortDesc S` returns a sequence in descending
order: each element is `>=` its right neighbour under byte-wise lexicographic comparison. -/
theorem BubbleSortDesc_descending (S : List GoString) :
    ∃ out : List GoString, BubbleSortDesc S = some out ∧
      ∀ (i : Nat) (h : i + 1 < out.length),
        strGe (out.get ⟨i, Nat.lt_of_succ_lt h⟩) (out.get ⟨i + 1, h⟩) = true := by
  obtain ⟨out, hrun, _, hsorted⟩ := BubbleSortDesc_spec S
  refine ⟨out, hrun, ?_⟩
  intro i h
  have := List.pairwise_iff_get.mp hsorted ⟨i, Nat.lt_of_succ_lt h⟩ ⟨i + 1, h⟩
    (by simp [Fin.lt_def])
  simp only [strGe, strLe_eq_not_strLt, this, Bool.not_false]

/-- C2: for every sequence `S` of strings `BubbleSortDesc S` returns a permutation of `S`:
it has the length of `S` and every string occurs in it as often as in `S`. -/
theorem BubbleSortDesc_permutation (S : List GoString) :
    ∃ out : List GoString, BubbleSortDesc S = some out ∧ List.Perm out S ∧
      out.length = S.length ∧ ∀ x : GoString, out.count x = S.count x := by
  obtain ⟨out, hrun, hperm, _⟩ := BubbleSortDesc_spec S
  exact ⟨out, hrun, hperm, hperm.length_eq, fun x => hperm.countP_eq _⟩

/-! ## String: the loop writes the canonical text while it fits the buffer -/

theorem wrapInt64_of_range (x : Int) (h1 : -(2:Int) ^ 63 ≤ x) (h2 : x < (2:Int) ^ 63) : wrapInt64 x = x := by
  unfold wrapInt64
  omega

theorem digitChar_toNat (d : Nat) (h : d < 10) : (Nat.digitChar d).toNat = 48 + d := by
  interval_cases d <;> rfl

theorem toByte_tmod (v : Nat) : (48 + toByte ((v : Int).tmod 10)) % 256 = 48 + v % 10 := by
  have h : ((v : Int).tmod 10) = ((v % 10 : Nat) : Int) := by
    rw [Int.ofNat_tmod]; rfl
  rw [h]
  unfold toByte
  have : (((v % 10 : Nat) : Int) % 256).toNat = v % 10 := by omega
  rw [this]
  omega

theorem tdiv_cast (v : Nat) : (v : Int).tdiv 10 = ((v / 10 : Nat) : Int) := by
  rw [Int.ofNat_tdiv]; rfl

theorem toDigitsCore_append (f : Nat) : ∀ (v : Nat) (ds : List Char),
    Nat.toDigitsCore 10 f v ds = Nat.toDigitsCore 10 f v [] ++ ds := by
  induction f with
  | zero => intro v ds; simp [Nat.toDigitsCore]
  | succ f ih =>
    intro v ds
    simp only [Nat.toDigitsCore]
    split
    · simp
    · rw [ih (v / 10) (Nat.digitChar (v % 10) :: ds), ih (v / 10) [Nat.digitChar (v % 10)]]
      simp

theorem toDigitsCore_fuel (f1 : Nat) : ∀ (f2 v : Nat), v < f1 → v < f2 →
    Nat.toDigitsCore 10 f1 v [] = Nat.toDigitsCore 10 f2 v [] := by
  induction f1 with
  | zero => intro f2 v h; omega
  | succ f1 ih =>
    intro f2 v h1 h2
    cases f2 with
    | zero => omega
    | succ f2 =>
      simp only [Nat.toDigitsCore]
      split
      · rfl
      · rw [toDigitsCore_append f1, toDigitsCore_append f2, ih f2 (v / 10) (by omega) (by omega)]

theorem natText_lt_ten (v : Nat) (h : v < 10) : natText v = [48 + v] := by
  have h0 : v / 10 = 0 := by omega
  have h1 : v % 10 = v := by omega
  simp [natText, Nat.toDigits, Nat.toDigitsCore, h0, h1, digitChar_toNat v h]

theorem toDigitsCore_succ (f v : Nat) (ds : List Char) :
    Nat.toDigitsCore 10 (f + 1) v ds =
      if v / 10 = 0 then Nat.digitChar (v % 10) :: ds
      else Nat.toDigitsCore 10 f (v / 10) (Nat.digitChar (v % 10) :: ds) := rfl

theorem natText_ge_ten (v : Nat) (h : 10 ≤ v) :
    natText v = natText (v / 10) ++ [48 + v % 10] := by
  have h0 : ¬ v / 10 = 0 := by omega
  have hd := digitChar_toNat (v % 10) (by omega)
  unfold natText Nat.toDigits
  rw [toDigitsCore_succ v v [], if_neg h0, toDigitsCore_append,
    toDigitsCore_fuel v (v / 10 + 1) (v / 10) (by omega) (by omega)]
  simp only [List.map_append, List.map_cons, List.map_nil, hd]

theorem natText_length_pos (v : Nat) : 1 ≤ (natText v).length := by
  by_cases h : v < 10
  · simp [natText_lt_ten v h]
  · rw [natText_ge_ten v (by omega)]; simp

theorem natText_length_le_iff (k : Nat) : ∀ v : Nat, (natText v).length ≤ k + 1 ↔ v < 10 ^ (k + 1) := by
  induction k with
  | zero =>
    intro v
    by_cases h : v < 10
    · simp [natText_lt_ten v h, h]
    · rw [natText_ge_ten v (by omega)]
      have := natText_length_pos (v / 10)
      simp only [List.length_append, List.length_singleton]
      omega
  | succ k ih =>
    intro v
    by_cases h : v < 10
    · have : v < 10 ^ (k + 1 + 1) := by
        have : 10 ^ 1 ≤ 10 ^ (k + 1 + 1) := Nat.pow_le_pow_right (by omega) (by omega)
        omega
      simp [natText_lt_ten v h, this]
    · rw [natText_ge_ten v (by omega)]
      simp only [List.length_append, List.length_singleton, Nat.add_le_add_iff_right]
      rw [ih (v / 10), Nat.pow_succ 10 (k + 1)]
      omega

theorem drop_set_self (buf : List Nat) (p x : Nat) (h : p < buf.length) :
    (buf.set p x).drop p = x :: buf.drop (p + 1) := by
  induction buf generalizing p with
  | nil => simp at h
  | cons b bs ih =>
    cases p with
    | zero => simp
    | succ p => simpa using ih p (by simpa using h)

theorem stringLoop_natCast (pos : Nat) : ∀ (buf : List Nat) (v : Nat) (signed : Bool),
    pos ≤ buf.length →
    stringLoop pos buf (v : Int) signed =
      if (natText v).length + (if signed then 1 else 0) ≤ pos then
        some ((if signed then [45] else []) ++ natText v ++ buf.drop pos)
      else none := by
  induction pos with
  | zero =>
    intro buf v signed _
    have := natText_length_pos v
    rw [if_neg (by omega)]
    rfl
  | succ p ih =>
    intro buf v signed hp
    have hlen := natText_length_pos v
    simp only [stringLoop, toByte_tmod, tdiv_cast]
    by_cases h : v < 10
    · have h0 : ((v / 10 : Nat) : Int) = 0 := by
        have : v / 10 = 0 := by omega
        simp [this]
      rw [if_pos h0, natText_lt_ten v h]
      cases signed with
      | false => simp [drop_set_self buf p _ (by omega), Nat.mod_eq_of_lt h]
      | true =>
        cases p with
        | zero => simp
        | succ q =>
          have h1 := drop_set_self (buf.set (q + 1) (48 + v % 10)) q 45
            (by simp only [List.length_set]; omega)
          have h2 := drop_set_self buf (q + 1) (48 + v % 10) (by omega)
          simp only [if_true]
          rw [h1, h2, Nat.mod_eq_of_lt h]
          simp
    · have h0 : ¬ ((v / 10 : Nat) : Int) = 0 := by
        have : v / 10 ≠ 0 := by omega
        exact_mod_cast this
      rw [if_neg h0, ih _ _ _ (by simp only [List.length_set]; omega),
        natText_ge_ten v (by omega), drop_set_self buf p _ (by omega)]
      simp only [List.length_append, List.length_singleton]
      by_cases hc : (natText (v / 10)).length + (if signed = true then 1 else 0) ≤ p
      · have hc2 : (natText (v / 10)).length + 1 + (if signed = true then 1 else 0) ≤ p + 1 := by
          omega
        rw [if_pos hc, if_pos hc2]
        simp
      · have hc2 : ¬ (natText (v / 10)).length + 1 + (if signed = true then 1 else 0) ≤ p + 1 := by
          omega
        rw [if_neg hc, if_neg hc2]

theorem String_of_nonneg (n : Int) (h0 : 0 ≤ n) (h1 : n < (2 : Int) ^ 63) :
    String n = if (natText n.natAbs).length ≤ 11 then some (natText n.natAbs) else none := by
  have hw : wrapInt64 n = n := wrapInt64_of_range n (by omega) h1
  have hs : decide (n < 0) = false := by simpa using h0
  have hn : n = ((n.natAbs : Nat) : Int) := by omega
  have h := stringLoop_natCast 11 (List.replicate 11 0) n.natAbs false (by simp)
  unfold String
  simp only [hw, hs, List.length_replicate]
  rw [← hn] at h
  simpa using h

theorem String_of_neg (n : Int) (h0 : n < 0) (h1 : -(2 : Int) ^ 63 < n) :
    String n =
      if (natText n.natAbs).length + 1 ≤ 11 then some (45 :: natText n.natAbs) else none := by
  have hw : wrapInt64 n = n := wrapInt64_of_range n (by omega) (by omega)
  have hw2 : wrapInt64 (-n) = -n := wrapInt64_of_range (-n) (by omega) (by omega)
  have hs : decide (n < 0) = true := by simpa using h0
  have hn : -n = ((n.natAbs : Nat) : Int) := by omega
  have h := stringLoop_natCast 11 (List.replicate 11 0) n.natAbs true (by simp)
  unfold String
  simp only [hw, hs, hw2, List.length_replicate, if_true]
  rw [← hn] at h
  simpa using h

/-- Wherever the text fits the buffer, `String` returns the canonical base-10 text. -/
theorem String_in_range (n : Int) (h1 : -(10 : Int) ^ 10 < n) (h2 : n < (10 : Int) ^ 11) :
    String n = some (decimalText n) := by
  by_cases h0 : 0 ≤ n
  · have hlen : (natText n.natAbs).length ≤ 10 + 1 :=
      (natText_length_le_iff 10 n.natAbs).mpr (by omega)
    rw [String_of_nonneg n h0 (by omega), if_pos hlen]
    simp [decimalText, h0]
  · have hlen : (natText n.natAbs).length ≤ 9 + 1 :=
      (natText_length_le_iff 9 n.natAbs).mpr (by omega)
    rw [String_of_neg n (by omega) (by omega), if_pos (by omega)]
    have : n < 0 := by omega
    simp [decimalText, this]

/-- With `int` 64 bits wide, `String` panics on every value whose text does not fit the
buffer. -/
theorem String_out_of_range (n : Int) (h : isInt 64 n)
    (h2 : n ≤ -(10 : Int) ^ 10 ∨ (10 : Int) ^ 11 ≤ n) : String n = none := by
  obtain ⟨hlo, hhi⟩ := h
  by_cases h0 : 0 ≤ n
  · have hlen : ¬ (natText n.natAbs).length ≤ 10 + 1 := by
      rw [natText_length_le_iff 10 n.natAbs]; omega
    rw [String_of_nonneg n h0 (by omega), if_neg hlen]
  · by_cases hmin : n = -(2 : Int) ^ 63
    · subst hmin; decide
    · have hlen : ¬ (natText n.natAbs).length ≤ 9 + 1 := by
        rw [natText_length_le_iff 9 n.natAbs]; omega
      rw [String_of_neg n (by omega) (by omega), if_neg (by omega)]

/-- Where `int` is 32 bits wide, `String` returns the canonical base-10 text of every
value. -/
theorem String_int32 (n : Int) (h : isInt 32 n) : String n = some (decimalText n) := by
  obtain ⟨hlo, hhi⟩ := h
  exact String_in_range n (by omega) (by omega)

/-! ### The canonical text parses back and is well formed -/

theorem parseDigits_concat (xs : List Nat) : ∀ (acc d : Nat), d < 10 →
    parseDigits acc (xs ++ [48 + d]) = (parseDigits acc xs).map (fun a => 10 * a + d) := by
  induction xs with
  | nil =>
    intro acc d hd
    have h1 : 48 + d ≤ 57 := by omega
    simp [parseDigits, h1]
  | cons x xs ih =>
    intro acc d hd
    by_cases hx : 48 ≤ x ∧ x ≤ 57
    · simp only [List.cons_append, parseDigits, hx, and_self, if_true]
      exact ih _ d hd
    · simp only [List.cons_append, parseDigits, hx, if_false, Option.map_none']

theorem parseDigits_natText (v : Nat) : parseDigits 0 (natText v) = some v := by
  induction v using Nat.strong_induction_on with
  | _ v ih =>
    by_cases h : v < 10
    · have h1 : 48 + v ≤ 57 := by omega
      simp [natText_lt_ten v h, parseDigits, h1]
    · rw [natText_ge_ten v (by omega), parseDigits_concat _ 0 (v % 10) (by omega),
        ih (v / 10) (by omega)]
      simp only [Option.map_some', Option.some.injEq]
      omega

theorem natText_all_isDigit (v : Nat) : (natText v).all isDigit = true := by
  induction v using Nat.strong_induction_on with
  | _ v ih =>
    by_cases h : v < 10
    · have h1 : 48 + v ≤ 57 := by omega
      simp [natText_lt_ten v h, isDigit, h1]
    · rw [natText_ge_ten v (by omega), List.all_append, ih (v / 10) (by omega)]
      have h1 : 48 + v % 10 ≤ 57 := by omega
      simp [isDigit, h1]

/-- The first digit of the text of a positive number is not `0`. -/
theorem natText_head (v : Nat) (hv : 1 ≤ v) :
    ∃ d rest, natText v = d :: rest ∧ 49 ≤ d ∧ d ≤ 57 := by
  induction v using Nat.strong_induction_on with
  | _ v ih =>
    by_cases h : v < 10
    · exact ⟨48 + v, [], natText_lt_ten v h, by omega, by omega⟩
    · obtain ⟨d, rest, hd, h1, h2⟩ := ih (v / 10) (by omega) (by omega)
      exact ⟨d, rest ++ [48 + v % 10], by rw [natText_ge_ten v (by omega), hd]; rfl, h1, h2⟩

theorem natText_cons (v : Nat) : ∃ d rest, natText v = d :: rest ∧ 48 ≤ d ∧ d ≤ 57 := by
  by_cases h : v = 0
  · subst h; exact ⟨48, [], by decide, by omega, by omega⟩
  · obtain ⟨d, rest, hd, h1, h2⟩ := natText_head v (by omega)
    exact ⟨d, rest, hd, by omega, h2⟩

theorem digitsForm_natText (v : Nat) : digitsForm (natText v) = true := by
  have hall := natText_all_isDigit v
  by_cases h : v < 10
  · have h1 : 48 + v ≤ 57 := by omega
    simp [natText_lt_ten v h, digitsForm, isDigit, h1]
  · obtain ⟨d, rest, hd, h1, h2⟩ := natText_head v (by omega)
    rw [hd] at hall ⊢
    simp only [List.all_cons, Bool.and_eq_true] at hall
    cases rest with
    | nil => simpa [digitsForm] using hall.1
    | cons r rs =>
      have h48 : d ≠ 48 := by omega
      simp [digitsForm, hall.1, h48]
      simpa using hall.2

/-- Standard base-10 parsing reads the canonical text of `n` back as `n`. -/
theorem parseDecimal_decimalText (n : Int) : parseDecimal (decimalText n) = some n := by
  have hp := parseDigits_natText n.natAbs
  obtain ⟨d, rest, hd, h1, h2⟩ := natText_cons n.natAbs
  by_cases h0 : n < 0
  · simp only [decimalText, h0, if_true, hd, List.singleton_append]
    rw [hd] at hp
    simp only [parseDecimal, hp, Option.map_some', Option.some.injEq]
    omega
  · simp only [decimalText, h0, if_false, hd, List.nil_append]
    rw [hd] at hp
    have h45 : d ≠ 45 := by omega
    have h43 : d ≠ 43 := by omega
    unfold parseDecimal
    split <;> simp_all

/-- The canonical text has the form `-?[0-9]+` without leading zeros. -/
theorem decimalForm_decimalText (n : Int) : decimalForm (decimalText n) = true := by
  have hf := digitsForm_natText n.natAbs
  by_cases h0 : n < 0
  · simpa [decimalText, h0, decimalForm] using hf
  · obtain ⟨d, rest, hd, h1, h2⟩ := natText_cons n.natAbs
    simp only [decimalText, h0, if_false, List.nil_append]
    rw [hd] at hf ⊢
    have h45 : d ≠ 45 := by omega
    unfold decimalForm
    split
    · simp_all
    · exact hf

/-! ## String: the 11-byte buffer and the negation in `int64` -/

/-- C4, at the failing inputs: with `int` 64 bits wide, `String` panics on `100000000000`
(twelve digits) and on `-10000000000` (eleven digits and a sign): the position cursor is
decremented below `0`. -/
theorem String_panics :
    isInt 64 100000000000 ∧ String 100000000000 = none ∧
      isInt 64 (-10000000000) ∧ String (-10000000000) = none := by decide

/-- C3, at the failing input: with `int` 64 bits wide, `String 100000000000` returns no
string that parses back to `100000000000`. -/
theorem String_roundtrip_fails :
    isInt 64 100000000000 ∧
      ¬ ∃ s : GoString, String 100000000000 = some s ∧ parseDecimal s = some 100000000000 := by
  have h : String 100000000000 = none := by decide
  refine ⟨by decide, ?_⟩
  rintro ⟨s, hs, _⟩
  rw [h] at hs
  cases hs

/-- C8, at the failing input: with `int` 64 bits wide, `String (-10000000000)` returns no
string of the form `-?[0-9]+`. -/
theorem String_form_fails :
    isInt 64 (-10000000000) ∧
      ¬ ∃ s : GoString, String (-10000000000) = some s ∧ decimalForm s = true := by
  have h : String (-10000000000) = none := by decide
  refine ⟨by decide, ?_⟩
  rintro ⟨s, hs, _⟩
  rw [h] at hs
  cases hs

/-- C9, at the failing input: with `int` 64 bits wide the most negative value is `-2^63`;
its negation in `int64` wraps around to `-2^63` itself, the first byte the loop writes is
`(` instead of the digit `8`, and `String` panics instead of returning
`-9223372036854775808`. -/
theorem String_minInt64 :
    isInt 64 (-9223372036854775808) ∧ ¬ isInt 64 (-9223372036854775808 - 1) ∧
      wrapInt64 (-(wrapInt64 (-9223372036854775808))) = -9223372036854775808 ∧
      (48 + toByte ((-9223372036854775808 : Int).tmod 10)) % 256 = 40 ∧
      String (-9223372036854775808) = none := by decide

/-! ### The loop of `Mode` as a fold over the elements -/

theorem foldlM_modeBody (mode : List GoString) (init : ModeState) :
    ∀ n : Nat, n ≤ mode.length →
      (List.range n).foldlM (modeBody mode) init = some ((mode.take n).foldl modeStep init) := by
  intro n
  induction n with
  | zero => intro _; simp
  | succ n ih =>
    intro hn
    have hlt : n < mode.length := by omega
    rw [List.range_succ, List.foldlM_append, ih (by omega)]
    simp only [Option.bind_eq_bind, Option.some_bind, List.foldlM_cons, List.foldlM_nil,
      modeBody, List.getElem?_eq_getElem hlt, Option.pure_def, Option.bind_some]
    rw [List.take_succ, List.getElem?_eq_getElem hlt]
    simp only [Option.toList_some, List.foldl_append, List.foldl_cons, List.foldl_nil]

theorem Mode_cons (a : GoString) (rest : List GoString) :
    Mode (a :: rest) = some ((a :: rest).foldl modeStep
      { modeMap := fun _ => 0, maxEl := a, maxCount := 1 }).maxEl := by
  have h := foldlM_modeBody (a :: rest) { modeMap := fun _ => 0, maxEl := a, maxCount := 1 }
    (a :: rest).length (Nat.le_refl _)
  rw [List.take_length] at h
  unfold Mode
  rw [if_neg (by simp)]
  simp only [List.getElem?_cons_zero, Option.bind_eq_bind, Option.some_bind, h, Option.pure_def]

/-! ### Invariant of the loop of `Mode` -/

theorem modeStep_modeMap (s : ModeState) (el x : GoString) :
    (modeStep s el).modeMap x = if x = el then s.modeMap el + 1 else s.modeMap x := by
  unfold modeStep
  by_cases h0 : s.modeMap el = 0 <;> by_cases hx : x = el <;>
    simp only [h0, hx, if_true, if_false] <;> split <;> simp [Function.update, hx]

theorem modeStep_max (s : ModeState) (el : GoString) :
    (s.maxCount < s.modeMap el + 1 ∧ (modeStep s el).maxEl = el ∧
      (modeStep s el).maxCount = s.modeMap el + 1) ∨
    (s.modeMap el + 1 ≤ s.maxCount ∧ (modeStep s el).maxEl = s.maxEl ∧
      (modeStep s el).maxCount = s.maxCount) := by
  unfold modeStep
  by_cases h0 : s.modeMap el = 0
  · simp only [h0, if_true, Function.update_same]
    by_cases h : 1 > s.maxCount
    · left; simp [h]
    · right; simp [h]; omega
  · simp only [h0, if_false, Function.update_same]
    by_cases h : s.modeMap el + 1 > s.maxCount
    · left; simp [h]
    · right; simp [h]; omega

theorem count_concat (p : List GoString) (el x : GoString) :
    (p ++ [el]).count x = if x = el then p.count el + 1 else p.count x := by
  by_cases h : x = el
  · subst h; simp
  · have h2 : ¬ el = x := fun e => h e.symm
    simp [h, h2, List.count_singleton]

theorem ModeInv_step (first : GoString) (p : List GoString) (s : ModeState) (el : GoString)
    (hinv : ModeInv first p s) (hfirst : p = [] → el = first) :
    ModeInv first (p ++ [el]) (modeStep s el) := by
  obtain ⟨hmap, hle, hreach⟩ := hinv
  have hmap2 : ∀ x, (modeStep s el).modeMap x = (p ++ [el]).count x := by
    intro x
    rw [modeStep_modeMap, count_concat, hmap, hmap]
  rcases modeStep_max s el with ⟨hgt, hel, hcnt⟩ | ⟨hge, hel, hcnt⟩
  · rw [hmap] at hgt hcnt
    refine ⟨hmap2, ?_, Or.inr ⟨?_, p ++ [el], List.prefix_refl _, ?_, ?_⟩⟩
    · intro x
      rw [hcnt, count_concat]
      have := hle x
      split <;> omega
    · rw [hel, hcnt, count_concat, if_pos rfl]
    · rw [hel, hcnt, count_concat, if_pos rfl]
    · intro y hy
      rw [hel] at hy
      rw [hcnt, count_concat, if_neg hy]
      have := hle y
      omega
  · rw [hmap] at hge
    refine ⟨hmap2, ?_, Or.inr ?_⟩
    · intro x
      rw [hcnt, count_concat]
      have := hle x
      split <;> omega
    · rw [hel, hcnt]
      rcases hreach with ⟨hnil, hme, hmc⟩ | ⟨hc, q, hq, hqc, hqo⟩
      · have he := hfirst hnil
        subst hnil
        subst he
        rw [hme, hmc]
        refine ⟨by simp, [el], by simp, by simp, ?_⟩
        intro y hy
        have h2 : ¬ el = y := fun e => hy e.symm
        simp [List.count_singleton, h2]
      · have hne : ¬ s.maxEl = el := by
          intro e
          rw [e] at hc
          omega
        refine ⟨by rw [count_concat, if_neg hne]; exact hc, q, ?_, hqc, hqo⟩
        exact hq.trans (List.prefix_append p [el])

theorem ModeInv_foldl (first : GoString) (rest : List GoString) :
    ∀ (p : List GoString) (s : ModeState), ModeInv first p s →
      (p = [] → ∀ el ∈ rest.head?, el = first) →
      ModeInv first (p ++ rest) (rest.foldl modeStep s) := by
  induction rest with
  | nil => intro p s h _; simpa using h
  | cons el r ih =>
    intro p s h hfirst
    have h1 := ModeInv_step first p s el h (fun hp => hfirst hp el (by simp))
    have h2 := ih (p ++ [el]) (modeStep s el) h1 (fun hp => by simp at hp)
    simpa using h2

/-- The result of `Mode` on a non-empty input: a value whose count is the greatest, and that
reaches this count in a prefix of the input in which every other value is still below it. -/
theorem Mode_spec (S : List GoString) (hS : S ≠ []) :
    ∃ r : GoString, Mode S = some r ∧ (∀ x, S.count x ≤ S.count r) ∧
      ∃ q, q <+: S ∧ q.count r = S.count r ∧ ∀ y, y ≠ r → q.count y < S.count r := by
  cases S with
  | nil => exact absurd rfl hS
  | cons a rest =>
    have h0 : ModeInv a [] { modeMap := fun _ => 0, maxEl := a, maxCount := 1 } :=
      ⟨by simp, by simp, Or.inl ⟨rfl, rfl, rfl⟩⟩
    have h := ModeInv_foldl a (a :: rest) [] _ h0 (by simp)
    rw [List.nil_append] at h
    obtain ⟨_, hle, hreach⟩ := h
    refine ⟨_, Mode_cons a rest, ?_⟩
    rcases hreach with ⟨hnil, _⟩ | ⟨hc, q, hq, hqc, hqo⟩
    · exact absurd hnil (by simp)
    · rw [← hc] at hle hqc hqo
      exact ⟨hle, q, hq, hqc, hqo⟩

/-! ### Position of the `k`-th occurrence -/

theorem occIndex_lt_of_le_count (x : GoString) (q : List GoString) :
    ∀ (t : List GoString) (k : Nat), 1 ≤ k → k ≤ q.count x →
      ∃ i, occIndex x k (q ++ t) = some i ∧ i < q.length := by
  induction q with
  | nil => intro t k h1 h2; simp at h2; omega
  | cons z q ih =>
    intro t k h1 h2
    by_cases hz : z = x
    · subst hz
      simp only [List.count_cons_self] at h2
      by_cases hk : k ≤ 1
      · exact ⟨0, by simp [occIndex, hk], by simp⟩
      · obtain ⟨i, hi, hlt⟩ := ih t (k - 1) (by omega) (by omega)
        exact ⟨i + 1, by simp [occIndex, hk, hi], by simp; omega⟩
    · rw [List.count_cons_of_ne (fun e => hz e.symm)] at h2
      obtain ⟨i, hi, hlt⟩ := ih t k h1 h2
      exact ⟨i + 1, by simp [occIndex, hz, hi], by simp; omega⟩

theorem le_occIndex_of_count_lt (y : GoString) (q : List GoString) :
    ∀ (t : List GoString) (k j : Nat), q.count y < k → occIndex y k (q ++ t) = some j →
      q.length ≤ j := by
  induction q with
  | nil => intro t k j _ _; simp
  | cons z q ih =>
    intro t k j h1 h2
    by_cases hz : z = y
    · subst hz
      simp only [List.count_cons_self] at h1
      have hk : ¬ k ≤ 1 := by omega
      simp only [List.cons_append, occIndex, if_true, hk, if_false, Option.map_eq_some'] at h2
      obtain ⟨j', hj', rfl⟩ := h2
      have := ih t (k - 1) j' (by omega) hj'
      simp only [List.length_cons]; omega
    · rw [List.count_cons_of_ne (fun e => hz e.symm)] at h1
      simp only [List.cons_append, occIndex, hz, if_false, Option.map_eq_some'] at h2
      obtain ⟨j', hj', rfl⟩ := h2
      have := ih t k j' h1 hj'
      simp only [List.length_cons]; omega

/-- C5: for every non-empty sequence `S`, `Mode S` returns a value with the highest
occurrence count in `S`: no string occurs in `S` more often than it, and it is an element
of `S`. -/
theorem Mode_most_frequent (S : List GoString) (hS : S ≠ []) :
    ∃ r : GoString, Mode S = some r ∧ (∀ x : GoString, S.count x ≤ S.count r) ∧ r ∈ S := by
  obtain ⟨r, hrun, hmax, _⟩ := Mode_spec S hS
  refine ⟨r, hrun, hmax, ?_⟩
  cases S with
  | nil => exact absurd rfl hS
  | cons a rest =>
    have h1 := hmax a
    simp only [List.count_cons_self] at h1
    exact List.count_pos_iff.mp (by omega)

/-- The statement of `Mode_most_frequent` at the input `["a","b","b","a"]`. -/
theorem Mode_most_frequent_witness :
    ([[97], [98], [98], [97]] : List GoString) ≠ [] ∧
      ∃ r : GoString, Mode [[97], [98], [98], [97]] = some r ∧
        (∀ x : GoString, List.count x [[97], [98], [98], [97]] ≤
          List.count r [[97], [98], [98], [97]]) ∧
        r ∈ ([[97], [98], [98], [97]] : List GoString) :=
  ⟨by decide, Mode_most_frequent [[97], [98], [98], [97]] (by decide)⟩

/-- C6: tie-break of `Mode`. For every non-empty sequence `S` with maximum occurrence count
`m`, `Mode S` returns the value that first reaches count `m` in a left-to-right scan: it
occurs `m` times, and its `m`-th occurrence comes before the `m`-th occurrence of every
other value that occurs `m` times. -/
theorem Mode_tie_break (S : List GoString) (hS : S ≠ []) :
    ∃ (r : GoString) (m i : Nat), Mode S = some r ∧ S.count r = m ∧
      (∀ x : GoString, S.count x ≤ m) ∧ occIndex r m S = some i ∧
      ∀ y : GoString, y ≠ r → S.count y = m →
        ∃ j, occIndex y m S = some j ∧ i < j := by
  obtain ⟨r, hrun, hmax, q, hq, hqc, hqo⟩ := Mode_spec S hS
  have hpos : 1 ≤ S.count r := by
    cases S with
    | nil => exact absurd rfl hS
    | cons a rest =>
      have h1 := hmax a
      simp only [List.count_cons_self] at h1
      omega
  obtain ⟨t, hqt⟩ := hq
  subst hqt
  obtain ⟨i, hi, hlt⟩ := occIndex_lt_of_le_count r q t ((q ++ t).count r) hpos (by omega)
  refine ⟨r, (q ++ t).count r, i, hrun, rfl, hmax, hi, ?_⟩
  intro y hy hym
  obtain ⟨j, hj, _⟩ :=
    occIndex_lt_of_le_count y (q ++ t) [] ((q ++ t).count r) hpos (by omega)
  rw [List.append_nil] at hj
  refine ⟨j, hj, ?_⟩
  have := le_occIndex_of_count_lt y q t ((q ++ t).count r) j (hqo y hy) hj
  omega

/-- The statement of `Mode_tie_break` at the input `["a","b","b","a"]`. -/
theorem Mode_tie_break_witness :
    ([[97], [98], [98], [97]] : List GoString) ≠ [] ∧
      ∃ (r : GoString) (m i : Nat), Mode [[97], [98], [98], [97]] = some r ∧
        List.count r [[97], [98], [98], [97]] = m ∧
        (∀ x : GoString, List.count x [[97], [98], [98], [97]] ≤ m) ∧
        occIndex r m [[97], [98], [98], [97]] = some i ∧
        ∀ y : GoString, y ≠ r → List.count y [[97], [98], [98], [97]] = m →
          ∃ j, occIndex y m [[97], [98], [98], [97]] = some j ∧ i < j :=
  ⟨by decide, Mode_tie_break [[97], [98], [98], [97]] (by decide)⟩

/-- C7 as stated fails: on `["a","b","b","a"]` the function does not return `"a"`. -/
theorem Mode_abba_ne_a : Mode [[97], [98], [98], [97]] ≠ some [97] := by decide

/-- C7, amended: `Mode ["a","b","b","a"]` returns `"b"`, the first value to reach the tied
maximum count of 2 (its second occurrence is at index 2, that of `"a"` at index 3). -/
theorem Mode_abba : Mode [[97], [98], [98], [97]] = some [98] ∧
    List.count ([98] : GoString) [[97], [98], [98], [97]] = 2 ∧
    List.count ([97] : GoString) [[97], [98], [98], [97]] = 2 ∧
    occIndex [98] 2 [[97], [98], [98], [97]] = some 2 ∧
    occIndex [97] 2 [[97], [98], [98], [97]] = some 3 := by decide

/-- C10: `Mode` of the empty sequence returns the empty string and does not fail. -/
theorem Mode_nil : Mode [] = some [] := by decide

/-! ## Values of the functions at the inputs the specification names -/

/-- C11: `BubbleSortDesc` returns the empty sequence and every one-element sequence
unchanged. -/
theorem BubbleSortDesc_nil_singleton :
    BubbleSortDesc [] = some [] ∧ ∀ a : GoString, BubbleSortDesc [a] = some [a] :=
  ⟨rfl, fun _ => rfl⟩

/-- C12: `String` returns `"0"` for `0`, `"-42"` for `-42` and `"7"` for `7`. -/
theorem String_examples :
    String 0 = some [48] ∧ String (-42) = some [45, 52, 50] ∧ String 7 = some [55] := by
  decide

/-- C13: `Mode ["a","b","a","c","a"]` returns `"a"`. -/
theorem Mode_abaca : Mode [[97], [98], [97], [99], [97]] = some [97] := by decide

/-- C15: for every integer `n` with `-10^10 < n < 10^11`, `String n` returns the canonical
base-10 text of `n`: the digits the standard library prints, after a `-` when `n` is
negative; this text parses back to `n` and has the form `-?[0-9]+` without leading zeros. -/
theorem String_canonical (n : Int) (h1 : -(10 : Int) ^ 10 < n) (h2 : n < (10 : Int) ^ 11) :
    String n = some (decimalText n) ∧
      decimalText n = (if n < 0 then [45] else []) ++ natText n.natAbs ∧
      parseDecimal (decimalText n) = some n ∧ decimalForm (decimalText n) = true :=
  ⟨String_in_range n h1 h2, rfl, parseDecimal_decimalText n, decimalForm_decimalText n⟩

/-- The statement of `String_canonical` at `-2^31`, the most negative 32-bit value. -/
theorem String_canonical_witness :
    (-(10 : Int) ^ 10 < -2147483648 ∧ (-2147483648 : Int) < (10 : Int) ^ 11) ∧
      String (-2147483648) = some (decimalText (-2147483648)) ∧
      decimalText (-2147483648) =
        (if (-2147483648 : Int) < 0 then [45] else []) ++ natText (-2147483648 : Int).natAbs ∧
      parseDecimal (decimalText (-2147483648)) = some (-2147483648) ∧
      decimalForm (decimalText (-2147483648)) = true :=
  ⟨by decide, String_canonical (-2147483648) (by decide) (by decide)⟩

/-- C16: with `int` 64 bits wide, `String n` completes without an out-of-range index exactly
when `-10^10 < n < 10^11`; on every other value, `-2^63` included, the position cursor is
decremented below `0` and the call panics. -/
theorem String_returns_iff (n : Int) (h : isInt 64 n) :
    ((∃ s : GoString, String n = some s) ↔ (-(10 : Int) ^ 10 < n ∧ n < (10 : Int) ^ 11)) ∧
      ((n ≤ -(10 : Int) ^ 10 ∨ (10 : Int) ^ 11 ≤ n) → String n = none) := by
  refine ⟨⟨?_, ?_⟩, String_out_of_range n h⟩
  · rintro ⟨s, hs⟩
    by_contra hc
    rw [String_out_of_range n h (by omega)] at hs
    cases hs
  · rintro ⟨h1, h2⟩
    exact ⟨_, String_in_range n h1 h2⟩

/-- The statement of `String_returns_iff` at `-2^63`, the most negative 64-bit value. -/
theorem String_returns_iff_witness :
    isInt 64 (-9223372036854775808) ∧
      (((∃ s : GoString, String (-9223372036854775808) = some s) ↔
        (-(10 : Int) ^ 10 < -9223372036854775808 ∧
          (-9223372036854775808 : Int) < (10 : Int) ^ 11)) ∧
      (((-9223372036854775808 : Int) ≤ -(10 : Int) ^ 10 ∨
          (10 : Int) ^ 11 ≤ -9223372036854775808) → String (-9223372036854775808) = none)) :=
  ⟨by decide, String_returns_iff (-9223372036854775808) (by decide)⟩

/-! ## BubbleSortDesc and a library sort -/

theorem strLt_antisymm {a b : GoString} (h1 : strLt a b = false) (h2 : strLt b a = false) :
    a = b := by
  induction a generalizing b with
  | nil =>
    cases b with
    | nil => rfl
    | cons y ys => simp [strLt] at h1
  | cons x xs ih =>
    cases b with
    | nil => simp [strLt] at h2
    | cons y ys =>
      rw [← Bool.not_eq_true, strLt_cons_iff] at h1 h2
      have hxy : x = y := by
        by_cases h : x < y
        · exact absurd (Or.inl h) h1
        · by_cases h' : y < x
          · exact absurd (Or.inl h') h2
          · omega
      subst hxy
      have e : xs = ys := ih
        (by rw [← Bool.not_eq_true]; intro hh; exact h1 (Or.inr ⟨rfl, hh⟩))
        (by rw [← Bool.not_eq_true]; intro hh; exact h2 (Or.inr ⟨rfl, hh⟩))
      rw [e]

theorem strGe_iff (a b : GoString) : strGe a b = true ↔ strLt a b = false := by
  simp [strGe, strLe_eq_not_strLt]

/-- C14: `BubbleSortDesc` is interchangeable with a library sort under the descending
comparator: for every sequence `S` it returns the list a reference sort ordered by `>=`
returns. -/
theorem BubbleSortDesc_eq_referenceSortDesc (S : List GoString) :
    BubbleSortDesc S = some (referenceSortDesc S) := by
  obtain ⟨out, hrun, hperm, hsorted⟩ := BubbleSortDesc_spec S
  haveI : IsAntisymm GoString (fun a b => strGe a b = true) :=
    ⟨fun a b h1 h2 => strLt_antisymm ((strGe_iff a b).mp h1) ((strGe_iff b a).mp h2)⟩
  haveI : IsTrans GoString (fun a b => strGe a b = true) :=
    ⟨fun a b c h1 h2 => (strGe_iff a c).mpr
      (strLt_false_trans ((strGe_iff a b).mp h1) ((strGe_iff b c).mp h2))⟩
  haveI : IsTotal GoString (fun a b => strGe a b = true) :=
    ⟨fun a b => by
      cases h : strLt a b with
      | false => exact Or.inl ((strGe_iff a b).mpr h)
      | true => exact Or.inr ((strGe_iff b a).mpr (strLt_asymm h))⟩
  have hs1 : List.Sorted (fun a b => strGe a b = true) out :=
    List.Pairwise.imp (fun {a b} h => (strGe_iff a b).mpr h) hsorted
  have hs2 : List.Sorted (fun a b => strGe a b = true) (referenceSortDesc S) :=
    List.sorted_insertionSort _ S
  have hp : List.Perm out (referenceSortDesc S) :=
    hperm.trans (List.perm_insertionSort _ S).symm
  rw [hrun, List.eq_of_perm_of_sorted hp hs1 hs2]

/-! ## RemoveDuplicates -/

theorem foldlM_dedupBody (elements : List GoString) (init : DedupState) :
    ∀ n : Nat, n ≤ elements.length →
      (List.range n).foldlM (dedupBody elements) init =
        some ((elements.take n).foldl dedupStep init) := by
  intro n
  induction n with
  | zero => intro _; simp
  | succ n ih =>
    intro hn
    have hlt : n < elements.length := by omega
    rw [List.range_succ, List.foldlM_append, ih (by omega)]
    simp only [Option.bind_eq_bind, Option.some_bind, List.foldlM_cons, List.foldlM_nil,
      dedupBody, List.getElem?_eq_getElem hlt, Option.pure_def, Option.bind_some]
    rw [List.take_succ, List.getElem?_eq_getElem hlt]
    simp only [Option.toList_some, List.foldl_append, List.foldl_cons, List.foldl_nil]

theorem RemoveDuplicates_eq_foldl (elements : List GoString) :
    RemoveDuplicates elements =
      some (elements.foldl dedupStep { encountered := fun _ => false, result := [] }).result := by
  have h := foldlM_dedupBody elements { encountered := fun _ => false, result := [] }
    elements.length (Nat.le_refl _)
  rw [List.take_length] at h
  unfold RemoveDuplicates
  simp only [h, Option.bind_eq_bind, Option.some_bind, Option.pure_def]

theorem keepFirst_concat (p : List GoString) (x : GoString) :
    keepFirst (p ++ [x]) = if x ∈ p then keepFirst p else keepFirst p ++ [x] := by
  induction p with
  | nil => simp [keepFirst]
  | cons a p ih =>
    simp only [List.cons_append, keepFirst, List.append_eq]
    rw [ih]
    by_cases hx : x ∈ p
    · simp [hx]
    · by_cases hxa : x = a
      · subst hxa; simp [hx]
      · simp [hx, hxa, List.filter_append]

theorem dedupStep_inv (p : List GoString) (s : DedupState) (el : GoString)
    (henc : ∀ x, s.encountered x = decide (x ∈ p)) (hres : s.result = keepFirst p) :
    (∀ x, (dedupStep s el).encountered x = decide (x ∈ p ++ [el])) ∧
      (dedupStep s el).result = keepFirst (p ++ [el]) := by
  unfold dedupStep
  by_cases hel : el ∈ p
  · have h1 : s.encountered el = true := by rw [henc]; simpa using hel
    rw [if_pos h1, keepFirst_concat, if_pos hel]
    refine ⟨fun x => ?_, hres⟩
    rw [henc x]
    by_cases hx : x = el
    · subst hx; simp [hel]
    · simp [hx]
  · have h1 : ¬ s.encountered el = true := by rw [henc]; simpa using hel
    rw [if_neg h1, keepFirst_concat, if_neg hel]
    refine ⟨fun x => ?_, by simp [hres]⟩
    by_cases hx : x = el
    · subst hx; simp
    · simp [Function.update, hx, henc x]

theorem foldl_dedupStep_inv (rest : List GoString) :
    ∀ (p : List GoString) (s : DedupState),
      (∀ x, s.encountered x = decide (x ∈ p)) → s.result = keepFirst p →
      (rest.foldl dedupStep s).result = keepFirst (p ++ rest) := by
  induction rest with
  | nil => intro p s _ hres; simpa using hres
  | cons el r ih =>
    intro p s henc hres
    obtain ⟨h1, h2⟩ := dedupStep_inv p s el henc hres
    have := ih (p ++ [el]) (dedupStep s el) h1 h2
    simpa using this

theorem RemoveDuplicates_eq_keepFirst (S : List GoString) :
    RemoveDuplicates S = some (keepFirst S) := by
  rw [RemoveDuplicates_eq_foldl]
  have := foldl_dedupStep_inv S [] { encountered := fun _ => false, result := [] }
    (by simp) rfl
  simpa using this

theorem mem_keepFirst (S : List GoString) (x : GoString) : x ∈ keepFirst S ↔ x ∈ S := by
  induction S with
  | nil => simp [keepFirst]
  | cons a S ih =>
    simp only [keepFirst, List.mem_cons, List.mem_filter, ih, decide_eq_true_eq]
    by_cases h : x = a <;> simp [h]

theorem nodup_keepFirst (S : List GoString) : (keepFirst S).Nodup := by
  induction S with
  | nil => simp [keepFirst]
  | cons a S ih =>
    simp only [keepFirst, List.nodup_cons, List.mem_filter, decide_eq_true_eq]
    exact ⟨fun h => h.2 rfl, ih.filter _⟩

theorem indexOf_cons_of_ne (a y : GoString) (S : List GoString) (h : y ≠ a) :
    (a :: S).indexOf y = S.indexOf y + 1 := by
  have h2 : (a == y) = false := by simpa using fun e : a = y => h e.symm
  rw [List.indexOf_cons, h2]
  rfl

theorem indexOf_cons_same (a : GoString) (S : List GoString) : (a :: S).indexOf a = 0 := by
  rw [List.indexOf_cons]
  simp

theorem pairwise_indexOf_keepFirst (S : List GoString) :
    (keepFirst S).Pairwise (fun x y => S.indexOf x < S.indexOf y) := by
  induction S with
  | nil => simp [keepFirst]
  | cons a S ih =>
    simp only [keepFirst, List.pairwise_cons, List.mem_filter, decide_eq_true_eq]
    refine ⟨?_, ?_⟩
    · intro y hy
      rw [indexOf_cons_same, indexOf_cons_of_ne a y S hy.2]
      omega
    · have hsub : ((keepFirst S).filter (fun y => decide (y ≠ a))).Pairwise
          (fun x y => S.indexOf x < S.indexOf y) := ih.filter _
      refine List.Pairwise.imp_of_mem ?_ hsub
      intro x y hx hy hxy
      have hx2 : x ≠ a := by simpa using (List.mem_filter.mp hx).2
      have hy2 : y ≠ a := by simpa using (List.mem_filter.mp hy).2
      rw [indexOf_cons_of_ne a x S hx2, indexOf_cons_of_ne a y S hy2]
      omega

/-- C17: for every sequence `S`, `RemoveDuplicates S` returns `S` with every occurrence of a
value after its first occurrence deleted: the result has no repeated element, contains
exactly the values that occur in `S`, and lists them in the order of their first occurrence
in `S`. -/
theorem RemoveDuplicates_spec (S : List GoString) :
    ∃ out : List GoString, RemoveDuplicates S = some out ∧ out = keepFirst S ∧
      out.Nodup ∧ (∀ x : GoString, x ∈ out ↔ x ∈ S) ∧
      out.Pairwise (fun x y => S.indexOf x < S.indexOf y) :=
  ⟨keepFirst S, RemoveDuplicates_eq_keepFirst S, rfl, nodup_keepFirst S,
    mem_keepFirst S, pairwise_indexOf_keepFirst S⟩

end GoUtils
